import Mathlib

/-!
Verification of the tensor kernel, lookup-table manager and graph forward
pass of the ezkl graph-to-circuit compiler, against its natural-language
specification.  Definitions are shallow embeddings of the Rust source:

* `src/tensor/mod.rs`   — `Tensor`, `get_index`, `expand`,
  `get_broadcasted_shape`, the elementwise `Add`/`Mul` impls, `pow`,
  `duplicate_every_n`, `remove_every_n`;
* `src/circuit/table.rs` — `Table::layout`, `DynamicTable::layout`;
* `src/circuit/ops/mod.rs` / `lookup.rs` — `Rescaled::f`, the
  `PartialEq`/`Ord` impls on boxed operators, `LookupOp::as_str`;
* `src/graph/model.rs`  — the lookup bit-budget warning block of
  `Model::forward`.

Rust `i128` values are modelled as unbounded `Int` (none of the verified
properties exercise overflow); panics (failed `assert!`, out-of-range
indexing, arithmetic underflow) are modelled by `Option`/`Except` failure;
`Result` values by `Except`.
-/

namespace Ezkl

/-- Embeds `Tensor<T>` (src/tensor/mod.rs): a flat row-major buffer `inner`
together with a shape vector `dims`. -/
structure Tensor (α : Type) where
  inner : List α
  dims : List Nat
  deriving Repr, DecidableEq

/-- The constructors of the Rust type (`Tensor::new`, `reshape`, …) maintain the
invariant `inner.len() == dims.iter().product()`; tensors built by the
library always satisfy it. -/
def Tensor.wf {α : Type} (t : Tensor α) : Prop :=
  t.inner.length = t.dims.prod

instance {α : Type} (t : Tensor α) : Decidable t.wf := by
  unfold Tensor.wf; infer_instance

/-- Embeds `Tensor::get_index` (src/tensor/mod.rs:543): row-major address
`Σ indices[i] · Π_{j>i} dims[j]`.  The Rust function asserts
`dims.len() == indices.len()` and `indices[i] < dims[i]`; a failed assert
(a panic) is modelled as `none`. -/
def getIndex : List Nat → List Nat → Option Nat
  | [], [] => some 0
  | d :: ds, i :: is =>
    (getIndex ds is).bind fun rest =>
      if i < d then some (i * ds.prod + rest) else none
  | _, _ => none

/-- Embeds `Tensor::get` (src/tensor/mod.rs:493); out-of-range access
panics in Rust and is `none` here. -/
def Tensor.get {α : Type} (t : Tensor α) (indices : List Nat) : Option α :=
  match getIndex t.dims indices with
  | some k => t.inner[k]?
  | none => none

/-- Embeds `Tensor::map` (src/tensor/mod.rs:696): map over the buffer,
keeping the shape. -/
def Tensor.map {α β : Type} (t : Tensor α) (f : α → β) : Tensor β :=
  ⟨t.inner.map f, t.dims⟩

/-- All multi-indices of a shape in row-major (first axis slowest) order:
the order in which `itertools::multi_cartesian_product` yields them in
`Tensor::expand`. -/
def allCoords : List Nat → List (List Nat)
  | [] => [[]]
  | d :: ds => (List.range d).flatMap fun i => (allCoords ds).map (i :: ·)

/-- Effectful traversal in the `Option` monad: collects the images of `f`
across the list, failing as soon as `f` fails.  Used to model loops whose
body can panic. -/
def traverseOpt {α β : Type} (f : α → Option β) : List α → Option (List β)
  | [] => some []
  | a :: l =>
    match f a, traverseOpt f l with
    | some b, some bs => some (b :: bs)
    | _, _ => none

/-- The coordinate rewrite inside `Tensor::expand` (src/tensor/mod.rs:662):
axis `i` of the source reads position 0 when its extent is 1, the
coordinate itself otherwise; coordinates beyond the source rank are
dropped (`zipWith` truncates). -/
def newCoord (dims c : List Nat) : List Nat :=
  List.zipWith (fun d ci => if d = 1 then 0 else ci) dims c

/-- Embeds `Tensor::expand` (src/tensor/mod.rs:642): asserts
`rank ≤ rank(shape)`, returns the tensor unchanged when the shape already
matches, asserts every source extent is contained in `shape` or equals 1,
then fills the output at every coordinate of `shape` from the source at
`newCoord`.  Failed asserts and out-of-range reads (panics) are `none`. -/
def Tensor.expand {α : Type} (t : Tensor α) (shape : List Nat) : Option (Tensor α) :=
  if t.dims.length ≤ shape.length then
    if shape = t.dims then some t
    else if ∀ d ∈ t.dims, d ∈ shape ∨ d = 1 then
      match traverseOpt (fun c => t.get (newCoord t.dims c)) (allCoords shape) with
      | some inner => some ⟨inner, shape⟩
      | none => none
    else none
  else none

/-- The broadcast-compatibility relation of the claims, axes aligned at
the LEFT as `Tensor::expand` does: every axis of the source equals 1 or
the same-position axis of the target, and the source rank does not exceed
the target rank (missing trailing axes are broadcast). -/
def ExpandOk : List Nat → List Nat → Prop
  | [], _ => True
  | _ :: _, [] => False
  | d :: ds, s :: S2 => (d = 1 ∨ d = s) ∧ ExpandOk ds S2

instance ExpandOk.dec : ∀ dims S, Decidable (ExpandOk dims S)
  | [], _ => .isTrue trivial
  | _ :: _, [] => .isFalse id
  | _ :: ds, _ :: S2 =>
    have := ExpandOk.dec ds S2
    instDecidableAnd

/-- The broadcast the ORIGINAL claim describes, following its words:
axes aligned at the right (missing LEADING axes count as broadcast), each
source axis must equal 1 or the corresponding target axis, and the result
element at `c` is the source element at the trailing coordinates of `c`
with every size-1 axis read at position 0. -/
def expandSpec {α : Type} (t : Tensor α) (S : List Nat) : Option (Tensor α) :=
  let k := S.length - t.dims.length
  if ExpandOk t.dims (S.drop k) then
    match traverseOpt (fun c => t.get (newCoord t.dims (c.drop k))) (allCoords S) with
    | some inner => some ⟨inner, S⟩
    | none => none
  else none

/-- Embeds `TensorError` (src/tensor/mod.rs:36). -/
inductive TensorError
  | DimMismatch (s : String)
  | DimError
  | WrongMethod
  | SigBitTruncationError
  deriving Repr, DecidableEq

/-- Embeds `get_broadcasted_shape` (src/tensor/mod.rs:1047): with equal
ranks the elementwise max of the two shapes, otherwise the higher-rank
shape unchanged.  The Rust signature returns `Result` but no branch
produces an error. -/
def get_broadcasted_shape (shape_a shape_b : List Nat) : Except TensorError (List Nat) :=
  if shape_a.length = shape_b.length then
    .ok ((shape_a.zip shape_b).map fun p => max p.1 p.2)
  else if shape_a.length < shape_b.length then
    .ok shape_b
  else
    .ok shape_a

/-- The broadcast shape the ORIGINAL claim describes, following its
words: rank `max(|A|,|B|)`, `S[i] = max(A[i], B[i])` with a missing axis
counting as 1 (axes aligned at the right), and any mismatch other than
one side being 1 (or missing) is an error. -/
def broadcastShapeSpec (a b : List Nat) : Option (List Nat) :=
  let n := max a.length b.length
  let pa := List.replicate (n - a.length) 1 ++ a
  let pb := List.replicate (n - b.length) 1 ++ b
  traverseOpt
    (fun p => if p.1 = p.2 ∨ p.1 = 1 ∨ p.2 = 1 then some (max p.1 p.2) else none)
    (pa.zip pb)

/-- The in-place elementwise combine in the `Add`/`Sub`/`Mul`/`Div` impls:
`lhs.par_iter_mut().zip(rhs).for_each(...)` rewrites the first
`min(len)` elements of `lhs` and leaves its tail unchanged. -/
def zipMut {α : Type} (f : α → α → α) (l r : List α) : List α :=
  List.zipWith f l r ++ l.drop r.length

/-- Common shape of the `Add`/`Mul` impls for `Tensor` (src/tensor/mod.rs:794
and 916): broadcast both operands to `get_broadcasted_shape` (unwraps —
a panic is `none`), then combine elementwise in place into the left
operand. -/
def elemwiseBin {α : Type} (f : α → α → α) (a b : Tensor α) : Option (Tensor α) :=
  match get_broadcasted_shape a.dims b.dims with
  | .error _ => none
  | .ok s =>
    match a.expand s, b.expand s with
    | some lhs, some rhs => some ⟨zipMut f lhs.inner rhs.inner, lhs.dims⟩
    | _, _ => none

/-- Embeds `impl Add for Tensor` (src/tensor/mod.rs:794). -/
def Tensor.add (a b : Tensor Int) : Option (Tensor Int) :=
  elemwiseBin (· + ·) a b

/-- Embeds `impl Mul for Tensor` (src/tensor/mod.rs:916). -/
def Tensor.mul (a b : Tensor Int) : Option (Tensor Int) :=
  elemwiseBin (· * ·) a b

/-- The `while exp > 1` loop of `Tensor::pow` (src/tensor/mod.rs:947)
followed by the final `acc.mul(base)`. -/
def powAux (base acc : Tensor Int) (exp : Nat) : Option (Tensor Int) :=
  if 1 < exp then
    match (if exp % 2 = 1 then acc.mul base else some acc) with
    | none => none
    | some acc1 =>
      match base.mul base with
      | none => none
      | some base1 => powAux base1 acc1 (exp / 2)
  else
    acc.mul base
termination_by exp
decreasing_by exact Nat.div_lt_self (by omega) (by omega)

/-- Embeds `Tensor::pow` (src/tensor/mod.rs:947): exponentiation by
squaring starting from `acc = base.map(|_| 1)`. -/
def Tensor.pow (t : Tensor Int) (exp : Nat) : Option (Tensor Int) :=
  powAux t (t.map fun _ => (1 : Int)) exp

/-- The enumeration loop of `Tensor::duplicate_every_n`
(src/tensor/mod.rs:568): `i` is the enumeration index, `off` the running
offset which advances by one at every duplication. -/
def dupGo {α : Type} (n : Nat) : List α → Nat → Nat → List α
  | [], _, _ => []
  | x :: xs, i, off =>
    if (i + off + 1) % n = 0 then x :: x :: dupGo n xs (i + 1) (off + 1)
    else x :: dupGo n xs (i + 1) off

/-- Embeds `Tensor::duplicate_every_n` (src/tensor/mod.rs:568).  Rust
panics on `% 0`, modelled as `none`; the output shape is the
single-element vector `[inner.len()]`. -/
def Tensor.duplicate_every_n {α : Type} (t : Tensor α) (n initial_offset : Nat) :
    Option (Tensor α) :=
  if n = 0 then none
  else
    let inner := dupGo n t.inner 0 initial_offset
    some ⟨inner, [inner.length]⟩

/-- The enumeration loop of `Tensor::remove_every_n`
(src/tensor/mod.rs:601): the offset here is constant. -/
def remGo {α : Type} (n off : Nat) : List α → Nat → List α
  | [], _ => []
  | x :: xs, i =>
    if (i + off + 1) % n = 0 then remGo n off xs (i + 1)
    else x :: remGo n off xs (i + 1)

/-- Embeds `Tensor::remove_every_n` (src/tensor/mod.rs:601). -/
def Tensor.remove_every_n {α : Type} (t : Tensor α) (n initial_offset : Nat) :
    Option (Tensor α) :=
  if n = 0 then none
  else
    let inner := remGo n initial_offset t.inner 0
    some ⟨inner, [inner.length]⟩

/-! ### Operator layer (src/circuit/ops/mod.rs, lookup.rs) -/

/-- Modelled from the spec: `tensor::ops::rescale` (module `tensor/ops`,
absent from src/) multiplies every element of a tensor by the integer
multiplier (`scale[i].multiplier`, a `u128`). -/
def rescale (t : Tensor Int) (mult : Nat) : Tensor Int :=
  t.map fun x => x * mult

/-- Embeds `Rescaled::f` (src/circuit/ops/mod.rs:158): errors when the
multiplier vector and input list disagree in length, otherwise rescales
input `i` by `scale[i].1` and delegates to the forward of the wrapped operator,
`inner`. -/
def rescaledF (inner : List (Tensor Int) → Except TensorError (Tensor Int))
    (scale : List (Nat × Nat)) (x : List (Tensor Int)) :
    Except TensorError (Tensor Int) :=
  if scale.length ≠ x.length then .error (.DimMismatch "rescaled inputs")
  else inner (List.zipWith (fun s t => rescale t s.2) scale x)

/-- Modelled from the spec: the forward of `PolyOp::Add` (module
`circuit/ops/poly`, absent from src/) is the broadcast elementwise sum of
its two inputs, computed by the tensor `Add` impl. -/
def addF : List (Tensor Int) → Except TensorError (Tensor Int)
  | [a, b] =>
    match a.add b with
    | some r => .ok r
    | none => .error .DimError
  | _ => .error .DimError

/-- Modelled from the spec: every `LookupOp` forward delegates to
`tensor::ops::nonlinearities` (absent from src/), which "all operate
elementwise on integers"; the scalar function is abstracted as `g`.
`LookupOp::f` applies the nonlinearity to its first input `x[0]`
(src/circuit/ops/lookup.rs:49); an empty input list panics. -/
def lookupOpF (g : Int → Int) (x : List (Tensor Int)) :
    Except TensorError (Tensor Int) :=
  match x with
  | t :: _ => .ok (t.map g)
  | [] => .error .DimError

/-- The forward function of an operator applied to the single-element tensor
`[x]`, first entry of the result: the value the claims write as
`op.forward([Tensor(x)])[0]`. -/
def opForwardSingle (g : Int → Int) (x : Int) : Int :=
  match lookupOpF g [Tensor.mk [x] [1]] with
  | .ok t => t.inner.headI
  | .error _ => 0

/-! ### Lookup tables (src/circuit/table.rs) -/

/-- Modelled from the spec: `fieldutils::i128_to_felt` (absent from src/)
embeds a signed integer into the field; "negative integers map to
`−1 · |x|` in the field". -/
def i128_to_felt (p : Nat) (x : Int) : ZMod p :=
  if 0 ≤ x then (x.toNat : ZMod p) else -((-x).toNat : ZMod p)

/-- Embeds `CircuitError` as used by the table layouts. -/
inductive CircuitError
  | TableAlreadyAssigned
  | TensorFailure (e : TensorError)
  deriving Repr, DecidableEq

/-- Embeds `Tensor::from(smallest..largest)` in the table layouts
(src/circuit/table.rs:60): `smallest = −2^(bits−1)`,
`largest = 2^(bits−1)`, enumerated in ascending order.  `bits − 1` is a
`u32` subtraction, so the Rust code panics for `bits = 0`; all theorems
below assume `1 ≤ bits`. -/
def tableInputs (bits : Nat) : Tensor Int :=
  ⟨(List.range (2 ^ bits)).map fun i : Nat => -(2 ^ (bits - 1) : Int) + (i : Int),
   [2 ^ bits]⟩

/-- Embeds `Table<F>` (src/circuit/table.rs:24).  The two `TableColumn`
handles live in the backend and carry no data; `nonlinearity` is the
scalar semantics of the stored `LookupOp`. -/
structure Table where
  nonlinearity : Int → Int
  is_assigned : Bool
  bits : Nat

/-- Embeds `Table::layout` (src/circuit/table.rs:55): refuses an already
assigned table, evaluates the nonlinearity on the full input column, sets
`is_assigned`, and assigns row `i` the pair
`(inputs[i], evals[i])` embedded into the field.  The returned pair is
(result, table after the `&mut self` call). -/
def Table.layout (p : Nat) (t : Table) :
    Except CircuitError (List (ZMod p × ZMod p)) × Table :=
  if t.is_assigned then (.error .TableAlreadyAssigned, t)
  else
    match lookupOpF t.nonlinearity [tableInputs t.bits] with
    | .error e => (.error (.TensorFailure e), t)
    | .ok evals =>
      (.ok (List.zipWith (fun x y => (i128_to_felt p x, i128_to_felt p y))
          (tableInputs t.bits).inner evals.inner),
       { t with is_assigned := true })

/-- Embeds `DynamicTable<F>` (src/circuit/table.rs:102): the stored
operation is an arbitrary boxed `Op`, modelled by its fallible forward
function. -/
structure DynamicTable where
  operation : List (Tensor Int) → Except TensorError (Tensor Int)
  is_assigned : Bool
  bits : Nat

/-- Embeds `DynamicTable::layout` (src/circuit/table.rs:135): identical
guard and enumeration, but the forward of the operation may fail (the `?` on
`Op::<F>::f` propagates before `is_assigned` is set). -/
def DynamicTable.layout (p : Nat) (t : DynamicTable) :
    Except CircuitError (List (ZMod p × ZMod p)) × DynamicTable :=
  if t.is_assigned then (.error .TableAlreadyAssigned, t)
  else
    match t.operation [tableInputs t.bits] with
    | .error e => (.error (.TensorFailure e), t)
    | .ok evals =>
      (.ok (List.zipWith (fun x y => (i128_to_felt p x, i128_to_felt p y))
          (tableInputs t.bits).inner evals.inner),
       { t with is_assigned := true })

/-! ### Bit-budget warning of `Model::forward` (src/graph/model.rs:364) -/

/-- Fuel-bounded search for the least `k` with `n ≤ 2^k`. -/
def clog2Go (n : Nat) : Nat → Nat → Nat
  | 0, k => k
  | fuel + 1, k => if n ≤ 2 ^ k then k else clog2Go n fuel (k + 1)

/-- Ceiling base-2 logarithm for `n ≥ 1`: the least `k` with `n ≤ 2^k` (fuel `n`
suffices since `n ≤ 2^n`).  Models the exact value of
`(n as f64).log2().ceil()` in `Model::forward`. -/
def clog2 (n : Nat) : Nat :=
  clog2Go n n 0

/-- The value `⌈log2(maxv / 2^(bits−1))⌉`: dividing by an exact power of two shifts
the ceiling of `log2` by exactly `bits − 1`, so the f64 expression
`(max_lookup_inputs as f64 / max_range as f64).log2().ceil()` equals
`⌈log2 maxv⌉ − (bits − 1)`. -/
def ceilLog2Ratio (maxv bits : Nat) : Int :=
  (clog2 maxv : Int) - (bits - 1 : Nat)

/-- The four warning shapes emitted by the bit-budget block of
`Model::forward` (src/graph/model.rs:371-392), in source order. -/
inductive BudgetWarning
  | bitsOrScale (recommendedBits : Nat) (recommendedScale : Int)
  | bitsOnly (recommendedBits : Nat)
  | bits27AndScale (recommendedScale : Int)
  | noFit
  deriving Repr, DecidableEq

/-- Embeds the warning block of `Model::forward`
(src/graph/model.rs:364-394) with exact arithmetic in place of `f64`:
when the maximum absolute lookup input reaches `2^(bits−1)` a warning is
emitted; `recommended_bits = ⌈log2 max⌉ + 1`, and the code computes
`recommended_scale = 1 + ⌈log2(max / 2^(bits−1))⌉ − scale`.  The warning
never affects the return value of the function. -/
def forwardBudgetWarning (maxLookup bits scale : Nat) : Option BudgetWarning :=
  let maxRange : Nat := 2 ^ (bits - 1)
  if maxRange ≤ maxLookup then
    let recBits : Nat := clog2 maxLookup + 1
    let recScale : Int := 1 + ceilLog2Ratio maxLookup bits - scale
    if 0 < recScale then some (.bitsOrScale recBits recScale)
    else if recBits ≤ 27 then some (.bitsOnly recBits)
    else
      let recScale27 : Int := (scale : Int) - ceilLog2Ratio maxLookup 27
      if 0 < recScale27 then some (.bits27AndScale recScale27)
      else some .noFit
  else none

/-- The formula of the claim for the recommended scale, following the
spec words: `recommended_scale = scale − ⌈log2(max / 2^(b−1))⌉`. -/
def specRecommendedScale (maxLookup bits scale : Nat) : Int :=
  (scale : Int) - ceilLog2Ratio maxLookup bits

/-! ### Operator names, equality and order (src/circuit/ops/mod.rs:74-92) -/

/-- The closed operator family reachable through `Box<dyn Op<F>>` in src/:
`Input`, `Unknown`, `Constant` (src/circuit/ops/mod.rs), the eleven
`LookupOp` variants (src/circuit/ops/lookup.rs:19) and the `Rescaled`
wrapper.  `f32` parameters are modelled as rationals. -/
inductive OpKind
  | Input
  | Unknown
  | Const (values : Tensor Rat)
  | Div (denom : Rat)
  | ReLU (scale : Nat)
  | Sqrt (scales : Nat × Nat)
  | Rsqrt (scales : Nat × Nat)
  | Recip (scale : Nat)
  | LeakyReLU (scale : Nat) (slope : Rat)
  | Sigmoid (scales : Nat × Nat)
  | Exp (scales : Nat × Nat)
  | Tanh (scales : Nat × Nat)
  | Erf (scales : Nat × Nat)
  | GreaterThan (a : Rat)
  | Rescaled (inner : OpKind) (scale : List (Nat × Nat))
  deriving Repr, DecidableEq

/-- Embeds the `as_str` implementations (src/circuit/ops/mod.rs:119, 175,
224, 271 and src/circuit/ops/lookup.rs:93): a static name per operator
kind, ignoring parameters; `Rescaled` delegates to its inner operator. -/
def OpKind.as_str : OpKind → String
  | .Input => "Input"
  | .Unknown => "Unknown"
  | .Const _ => "CONST"
  | .GreaterThan _ => "GREATER_THAN"
  | .Recip _ => "RECIP"
  | .Div _ => "DIV"
  | .ReLU _ => "RELU"
  | .LeakyReLU _ _ => "LEAKY_RELU"
  | .Sigmoid _ => "SIGMOID"
  | .Sqrt _ => "SQRT"
  | .Tanh _ => "TANH"
  | .Erf _ => "ERF"
  | .Rsqrt _ => "RSQRT"
  | .Exp _ => "EXP"
  | .Rescaled inner _ => inner.as_str

/-- Embeds `impl PartialEq for Box<dyn Op<F>>`
(src/circuit/ops/mod.rs:76): `self.as_str() == other.as_str()`. -/
def opEqb (a b : OpKind) : Bool :=
  a.as_str == b.as_str

/-- Embeds `impl Ord for Box<dyn Op<F>>` (src/circuit/ops/mod.rs:88):
`self.as_str().cmp(other.as_str())`. -/
def opCmp (a b : OpKind) : Ordering :=
  compare a.as_str b.as_str

/-! ### Infrastructure lemmas -/

theorem traverseOpt_length {α β : Type} (f : α → Option β) :
    ∀ (l : List α) (l2 : List β), traverseOpt f l = some l2 → l2.length = l.length := by
  intro l
  induction l with
  | nil =>
    intro l2 h
    simp only [traverseOpt, Option.some.injEq] at h
    simp [← h]
  | cons a l ih =>
    intro l2 h
    simp only [traverseOpt] at h
    cases hfa : f a with
    | none => rw [hfa] at h; exact absurd h (by simp)
    | some b =>
      rw [hfa] at h
      cases hl : traverseOpt f l with
      | none => rw [hl] at h; exact absurd h (by simp)
      | some bs =>
        rw [hl] at h
        simp only [Option.some.injEq] at h
        simp [← h, ih bs hl]

theorem traverseOpt_getElem {α β : Type} (f : α → Option β) :
    ∀ (l : List α) (l2 : List β), traverseOpt f l = some l2 →
      ∀ i : Nat, l2[i]? = l[i]?.bind f := by
  intro l
  induction l with
  | nil =>
    intro l2 h i
    simp only [traverseOpt, Option.some.injEq] at h
    simp [← h]
  | cons a l ih =>
    intro l2 h i
    simp only [traverseOpt] at h
    cases hfa : f a with
    | none => rw [hfa] at h; exact absurd h (by simp)
    | some b =>
      rw [hfa] at h
      cases hl : traverseOpt f l with
      | none => rw [hl] at h; exact absurd h (by simp)
      | some bs =>
        rw [hl] at h
        simp only [Option.some.injEq] at h
        cases i with
        | zero => simp [← h, hfa]
        | succ n => simp [← h, ih bs hl n]

theorem traverseOpt_isSome {α β : Type} (f : α → Option β) :
    ∀ l : List α, (∀ a ∈ l, (f a).isSome) → ∃ l2, traverseOpt f l = some l2 := by
  intro l
  induction l with
  | nil => intro _; exact ⟨[], rfl⟩
  | cons a l ih =>
    intro h
    obtain ⟨b, hb⟩ := Option.isSome_iff_exists.mp (h a (by simp))
    obtain ⟨bs, hbs⟩ := ih fun x hx => h x (by simp [hx])
    exact ⟨b :: bs, by simp only [traverseOpt, hb, hbs]⟩

theorem flatMap_const_length {β : Type} (f : Nat → List β) (m : Nat)
    (h : ∀ i, (f i).length = m) :
    ∀ l : List Nat, (l.flatMap f).length = l.length * m := by
  intro l
  induction l with
  | nil => simp
  | cons a l ih => simp [List.flatMap_cons, ih, h a, Nat.succ_mul, Nat.add_comm]

theorem range_flatMap_getElem {β : Type} (f : Nat → List β) (m : Nat)
    (hm : ∀ x, (f x).length = m) :
    ∀ (d i j : Nat), i < d → j < m →
      ((List.range d).flatMap f)[i * m + j]? = (f i)[j]? := by
  intro d
  induction d with
  | zero => intro i j hi _; omega
  | succ d ih =>
    intro i j hi hj
    rw [List.range_succ, List.flatMap_append]
    rcases Nat.lt_or_ge i d with hlt | hge
    · rw [List.getElem?_append_left, ih i j hlt hj]
      rw [flatMap_const_length f m hm, List.length_range]
      calc i * m + j < i * m + m := by omega
      _ = (i + 1) * m := by ring
      _ ≤ d * m := Nat.mul_le_mul_right m hlt
    · have hi_eq : i = d := by omega
      subst hi_eq
      rw [List.getElem?_append_right (by
        rw [flatMap_const_length f m hm, List.length_range]; exact Nat.le_add_right _ _)]
      simp only [flatMap_const_length f m hm, List.length_range, List.flatMap_cons,
        List.flatMap_nil, List.append_nil]
      congr 1
      omega

theorem allCoords_length : ∀ s : List Nat, (allCoords s).length = s.prod := by
  intro s
  induction s with
  | nil => rfl
  | cons d ds ih =>
    simp only [allCoords, List.prod_cons]
    rw [flatMap_const_length _ ds.prod (fun i => by simp [ih]), List.length_range]

theorem forall_lt_of_mem_allCoords :
    ∀ (s : List Nat) (c : List Nat), c ∈ allCoords s → List.Forall₂ (· < ·) c s := by
  intro s
  induction s with
  | nil =>
    intro c hc
    simp only [allCoords, List.mem_singleton] at hc
    subst hc
    exact List.Forall₂.nil
  | cons d ds ih =>
    intro c hc
    simp only [allCoords, List.mem_flatMap, List.mem_map, List.mem_range] at hc
    obtain ⟨i, hi, c2, hc2, rfl⟩ := hc
    exact List.Forall₂.cons hi (ih c2 hc2)

theorem allCoords_getElem_of_getIndex :
    ∀ (s c : List Nat) (k : Nat), getIndex s c = some k → (allCoords s)[k]? = some c := by
  intro s
  induction s with
  | nil =>
    intro c k h
    cases c with
    | nil =>
      simp only [getIndex, Option.some.injEq] at h
      simp [allCoords, ← h]
    | cons x xs => exact absurd h (by simp [getIndex])
  | cons d ds ih =>
    intro c k h
    cases c with
    | nil => exact absurd h (by simp [getIndex])
    | cons i cs =>
      simp only [getIndex] at h
      cases hrest : getIndex ds cs with
      | none => rw [hrest] at h; exact absurd h (by simp)
      | some rest =>
        rw [hrest] at h
        simp only [Option.some_bind] at h
        by_cases hid : i < d
        · rw [if_pos hid] at h
          simp only [Option.some.injEq] at h
          have hmem := ih cs rest hrest
          have hrest_lt : rest < ds.prod := by
            have := (List.getElem?_eq_some_iff.mp hmem).1
            rwa [allCoords_length] at this
          subst h
          simp only [allCoords]
          rw [range_flatMap_getElem _ ds.prod (fun x => by simp [allCoords_length]) d i rest
            hid hrest_lt]
          simp [hmem]
        · rw [if_neg hid] at h
          exact absurd h (by simp)

theorem getIndex_some_of_valid :
    ∀ {s c : List Nat}, List.Forall₂ (· < ·) c s →
      ∃ k, getIndex s c = some k ∧ k < s.prod := by
  intro s c h
  induction h with
  | nil => exact ⟨0, rfl, Nat.one_pos⟩
  | @cons i d cs ds hid _ ih =>
    obtain ⟨k2, hk2, hk2lt⟩ := ih
    refine ⟨i * ds.prod + k2, ?_, ?_⟩
    · simp [getIndex, hk2, hid]
    · calc i * ds.prod + k2 < i * ds.prod + ds.prod := by omega
      _ = (i + 1) * ds.prod := by ring
      _ ≤ d * ds.prod := Nat.mul_le_mul_right _ hid
      _ = (d :: ds).prod := (List.prod_cons).symm

theorem newCoord_of_valid :
    ∀ {c dims : List Nat}, List.Forall₂ (· < ·) c dims → newCoord dims c = c := by
  intro c dims h
  induction h with
  | nil => rfl
  | @cons ci d cs ds hlt _ ih =>
    simp only [newCoord] at ih ⊢
    simp only [List.zipWith_cons_cons]
    by_cases hd : d = 1
    · have hci : ci = 0 := by omega
      simp [hd, hci, ih]
    · simp [hd, ih]

theorem ExpandOk.length_le :
    ∀ {dims S : List Nat}, ExpandOk dims S → dims.length ≤ S.length
  | [], _, _ => by simp
  | _ :: _, [], h => h.elim
  | _ :: ds, _ :: S2, h => by
    have := @ExpandOk.length_le ds S2 h.2
    simpa using Nat.succ_le_succ this

theorem ExpandOk.mem_or :
    ∀ {dims S : List Nat}, ExpandOk dims S → ∀ d ∈ dims, d ∈ S ∨ d = 1
  | [], _, _ => by simp
  | _ :: _, [], h => h.elim
  | d :: ds, s :: S2, h => by
    intro x hx
    rcases List.mem_cons.mp hx with rfl | hx2
    · rcases h.1 with h1 | hs
      · exact Or.inr h1
      · exact Or.inl (hs ▸ List.mem_cons_self _ _)
    · rcases ExpandOk.mem_or h.2 x hx2 with hmem | h1
      · exact Or.inl (List.mem_cons_of_mem _ hmem)
      · exact Or.inr h1

theorem getIndex_newCoord_some :
    ∀ (dims S c : List Nat), ExpandOk dims S → List.Forall₂ (· < ·) c S →
      ∃ k, getIndex dims (newCoord dims c) = some k ∧ k < dims.prod := by
  intro dims
  induction dims with
  | nil =>
    intro S c _ _
    exact ⟨0, rfl, Nat.one_pos⟩
  | cons d ds ih =>
    intro S c hok hc
    cases S with
    | nil => exact hok.elim
    | cons s S2 =>
      obtain ⟨hd, hok2⟩ := hok
      cases hc with
      | cons hi hc2 =>
        rename_i i c2
        obtain ⟨k2, hk2, hk2lt⟩ := ih S2 c2 hok2 hc2
        have he : (if d = 1 then 0 else i) < d := by
          by_cases h1 : d = 1
          · simp [h1]
          · rcases hd with h1x | hs
            · exact absurd h1x h1
            · rw [if_neg h1, hs]; exact hi
        refine ⟨(if d = 1 then 0 else i) * ds.prod + k2, ?_, ?_⟩
        · simp only [newCoord, List.zipWith_cons_cons, getIndex]
          have : List.zipWith (fun d ci => if d = 1 then 0 else ci) ds c2 = newCoord ds c2 :=
            rfl
          rw [this, hk2]
          simp [he]
        · calc (if d = 1 then 0 else i) * ds.prod + k2
              < (if d = 1 then 0 else i) * ds.prod + ds.prod := by omega
          _ = ((if d = 1 then 0 else i) + 1) * ds.prod := by ring
          _ ≤ d * ds.prod := Nat.mul_le_mul_right _ he
          _ = (d :: ds).prod := (List.prod_cons).symm

theorem get_newCoord_isSome {α : Type} (t : Tensor α) (S c : List Nat)
    (hwf : t.wf) (hok : ExpandOk t.dims S) (hc : List.Forall₂ (· < ·) c S) :
    (t.get (newCoord t.dims c)).isSome := by
  obtain ⟨k, hk, hklt⟩ := getIndex_newCoord_some t.dims S c hok hc
  unfold Tensor.get
  rw [hk]
  simp only [Option.isSome_iff_exists]
  have : k < t.inner.length := by rw [hwf]; exact hklt
  exact ⟨t.inner[k], List.getElem?_eq_some_iff.mpr ⟨this, rfl⟩⟩

/-- Core behaviour of `Tensor::expand` under the left-aligned
compatibility condition: it succeeds, produces shape `S`, and each
element at a valid multi-index `c` is the source element at
`newCoord dims c`. -/
theorem expand_spec_of_ok {α : Type} (t : Tensor α) (S : List Nat)
    (hwf : t.wf) (hok : ExpandOk t.dims S) :
    ∃ r, t.expand S = some r ∧ r.dims = S ∧
      ∀ c, List.Forall₂ (· < ·) c S → r.get c = t.get (newCoord t.dims c) := by
  unfold Tensor.expand
  rw [if_pos (ExpandOk.length_le hok)]
  by_cases hSeq : S = t.dims
  · rw [if_pos hSeq]
    refine ⟨t, rfl, hSeq.symm, ?_⟩
    intro c hc
    have hcd : List.Forall₂ (· < ·) c t.dims := hSeq ▸ hc
    rw [newCoord_of_valid hcd]
  · rw [if_neg hSeq, if_pos (ExpandOk.mem_or hok)]
    obtain ⟨inner2, hinner⟩ :=
      traverseOpt_isSome (fun c => t.get (newCoord t.dims c)) (allCoords S)
        (fun c hcmem =>
          get_newCoord_isSome t S c hwf hok (forall_lt_of_mem_allCoords S c hcmem))
    rw [hinner]
    refine ⟨⟨inner2, S⟩, rfl, rfl, ?_⟩
    intro c hc
    obtain ⟨k, hk, _⟩ := getIndex_some_of_valid hc
    have hget : (Tensor.mk inner2 S).get c = inner2[k]? := by
      unfold Tensor.get
      rw [hk]
    rw [hget, traverseOpt_getElem _ _ _ hinner k,
      allCoords_getElem_of_getIndex S c k hk]
    rfl

/-- Success of `Tensor::expand` yields shape `S` and a buffer of length
`Π S` (for well-formed inputs). -/
theorem expand_some_shape {α : Type} (t : Tensor α) (S : List Nat) (r : Tensor α)
    (hwf : t.wf) (h : t.expand S = some r) :
    r.dims = S ∧ r.inner.length = S.prod := by
  unfold Tensor.expand at h
  split at h
  case isFalse => exact absurd h (by simp)
  case isTrue hrank =>
    split at h
    case isTrue hSeq =>
      cases h
      exact ⟨hSeq.symm, by rw [hwf, hSeq]⟩
    case isFalse hSne =>
      split at h
      case isFalse => exact absurd h (by simp)
      case isTrue hall =>
        split at h
        case h_2 => exact absurd h (by simp)
        case h_1 inner2 htrav =>
          cases h
          refine ⟨rfl, ?_⟩
          rw [traverseOpt_length _ _ _ htrav, allCoords_length]

theorem zipWith_ext {α β γ : Type} {f g : α → β → γ} (h : ∀ a b, f a b = g a b)
    (l : List α) (r : List β) : List.zipWith f l r = List.zipWith g l r := by
  have hfg : f = g := funext fun a => funext fun b => h a b
  rw [hfg]

theorem zipWith_fst_of_length {α β : Type} :
    ∀ (l : List α) (r : List β), l.length = r.length →
      List.zipWith (fun a _ => a) l r = l := by
  intro l
  induction l with
  | nil => intro r _; simp
  | cons a l ih =>
    intro r h
    cases r with
    | nil => simp at h
    | cons b r => simpa using ih r (by simpa using h)

theorem map_uncurry_zip_eq_zipWith {α β γ : Type} (f : α → β → γ) :
    ∀ (l : List α) (r : List β),
      (l.zip r).map (fun p => f p.1 p.2) = List.zipWith f l r := by
  intro l
  induction l with
  | nil => intro r; simp
  | cons a l ih =>
    intro r
    cases r with
    | nil => simp
    | cons b r => simpa using ih r

theorem zipMut_eq_zipWith {α : Type} (f : α → α → α) (l r : List α)
    (h : l.length = r.length) : zipMut f l r = List.zipWith f l r := by
  unfold zipMut
  rw [← h, List.drop_length, List.append_nil]

/-- Closed form of `get_broadcasted_shape`: no input ever produces an
error; equal ranks broadcast axis-wise by `max`, unequal ranks return the
higher-rank shape unchanged. -/
theorem get_broadcasted_shape_eq (a b : List Nat) :
    get_broadcasted_shape a b =
      .ok (if a.length = b.length then List.zipWith max a b
        else if a.length < b.length then b else a) := by
  unfold get_broadcasted_shape
  by_cases h : a.length = b.length
  · rw [if_pos h, if_pos h, map_uncurry_zip_eq_zipWith]
  · rw [if_neg h, if_neg h]
    by_cases h2 : a.length < b.length
    · rw [if_pos h2, if_pos h2]
    · rw [if_neg h2, if_neg h2]

theorem get_broadcasted_shape_symm (a b : List Nat) :
    get_broadcasted_shape a b = get_broadcasted_shape b a := by
  rw [get_broadcasted_shape_eq, get_broadcasted_shape_eq]
  by_cases h : a.length = b.length
  · rw [if_pos h, if_pos h.symm, List.zipWith_comm_of_comm max Nat.max_comm]
  · have h1 : ¬b.length = a.length := fun e => h e.symm
    rw [if_neg h, if_neg h1]
    by_cases h2 : a.length < b.length
    · rw [if_pos h2, if_neg (by omega)]
    · rw [if_neg h2, if_pos (by omega)]

theorem expand_self {α : Type} (t : Tensor α) : t.expand t.dims = some t := by
  unfold Tensor.expand
  simp

/-- On operands of identical shape and buffer length, `elemwiseBin` is the
plain elementwise combine (both `expand` calls take the fast path). -/
theorem elemwiseBin_same {α : Type} (f : α → α → α) (a b : Tensor α)
    (hdims : a.dims = b.dims) (hlen : a.inner.length = b.inner.length) :
    elemwiseBin f a b = some ⟨List.zipWith f a.inner b.inner, a.dims⟩ := by
  unfold elemwiseBin
  have hgbs : get_broadcasted_shape a.dims b.dims = .ok a.dims := by
    rw [get_broadcasted_shape_eq, if_pos (by rw [hdims]), ← hdims, List.zipWith_same]
    simp
  have hea : a.expand a.dims = some a := expand_self a
  have heb : b.expand a.dims = some b := by rw [hdims]; exact expand_self b
  simp only [hgbs, hea, heb]
  rw [zipMut_eq_zipWith _ _ _ hlen]

/-- On operands of identical shape and buffer length, `Tensor::mul` is the
plain elementwise product. -/
theorem mul_same (a b : Tensor Int) (hdims : a.dims = b.dims)
    (hlen : a.inner.length = b.inner.length) :
    a.mul b = some ⟨List.zipWith (· * ·) a.inner b.inner, a.dims⟩ := by
  unfold Tensor.mul
  exact elemwiseBin_same _ a b hdims hlen

/-- Invariant of the squaring loop in `Tensor::pow`: for `e ≥ 1` and
shape-compatible `base`/`acc`, `powAux` computes
`acc[i] * base[i] ^ e` elementwise. -/
theorem powAux_eq_of_le : ∀ e : Nat, 1 ≤ e → ∀ base acc : Tensor Int,
    acc.dims = base.dims → acc.inner.length = base.inner.length →
    powAux base acc e =
      some ⟨List.zipWith (fun a b => a * b ^ e) acc.inner base.inner, acc.dims⟩ := by
  intro e
  induction e using Nat.strong_induction_on with
  | _ e ih =>
    intro h1e base acc hdims hlen
    rw [powAux]
    by_cases he : 1 < e
    · rw [if_pos he]
      have hacc1 : (if e % 2 = 1 then acc.mul base else some acc) =
          some ⟨List.zipWith (fun a b => a * b ^ (e % 2)) acc.inner base.inner, acc.dims⟩ := by
        by_cases hodd : e % 2 = 1
        · rw [if_pos hodd, mul_same acc base hdims hlen, hodd]
          simp only [pow_one]
        · have hzero : e % 2 = 0 := by omega
          rw [if_neg hodd, hzero]
          simp only [pow_zero, mul_one]
          rw [zipWith_fst_of_length _ _ hlen]
      have hbase1 : base.mul base = some ⟨base.inner.map (fun b => b * b), base.dims⟩ := by
        rw [mul_same base base rfl rfl, List.zipWith_same]
      have hrec := ih (e / 2) (Nat.div_lt_self (by omega) (by omega)) (by omega)
        ⟨base.inner.map (fun b => b * b), base.dims⟩
        ⟨List.zipWith (fun a b => a * b ^ (e % 2)) acc.inner base.inner, acc.dims⟩
        (by simpa using hdims)
        (by simp [hlen])
      simp only [hacc1, hbase1]
      rw [hrec]
      simp only [Option.some.injEq, Tensor.mk.injEq, and_true]
      rw [List.zipWith_map_right, List.zipWith_zipWith_left, List.zipWith3_same_right]
      refine zipWith_ext (fun a b => ?_) _ _
      rw [← pow_two, ← pow_mul, mul_assoc, ← pow_add, Nat.mod_add_div]
    · have he1 : e = 1 := by omega
      rw [if_neg he, he1, mul_same acc base hdims hlen]
      simp only [pow_one]

/-! ### Claim theorems -/

theorem opForwardSingle_eq (g : Int → Int) (x : Int) : opForwardSingle g x = g x := by
  simp [opForwardSingle, lookupOpF, Tensor.map]

/-- Claim C1: for every lookup operator and bit budget `b ≥ 1`, a table
laid out by `Table::layout` has exactly `2^b` rows; the inputs enumerate
every integer in `[−2^(b−1), 2^(b−1))` in ascending order (row `i` holds
input `−2^(b−1) + i`), and row `i` is the pair
`(x_i, op.forward([Tensor(x_i)])[0])`, both encoded by the signed-integer
field embedding. -/
theorem C1_table_layout_complete (p : Nat) (t : Table) (hb : 1 ≤ t.bits)
    (ha : t.is_assigned = false) :
    ∃ rows : List (ZMod p × ZMod p), (Table.layout p t).1 = .ok rows ∧
      rows.length = 2 ^ t.bits ∧
      ∀ i : Nat, i < 2 ^ t.bits →
        rows[i]? = some
          (i128_to_felt p (-(2 ^ (t.bits - 1) : Int) + i),
           i128_to_felt p (opForwardSingle t.nonlinearity (-(2 ^ (t.bits - 1) : Int) + i))) := by
  unfold Table.layout
  rw [if_neg (by simp [ha])]
  simp only [lookupOpF]
  refine ⟨_, rfl, ?_, ?_⟩
  · rw [List.length_zipWith]
    simp only [tableInputs, Tensor.map, List.length_map, List.length_range, Nat.min_self]
  · intro i hi
    have h1 : (tableInputs t.bits).inner[i]? =
        some (-(2 ^ (t.bits - 1) : Int) + i) := by
      simp only [tableInputs, List.getElem?_map, List.getElem?_range hi, Option.map_some']
    have h2 : ((tableInputs t.bits).map t.nonlinearity).inner[i]? =
        some (t.nonlinearity (-(2 ^ (t.bits - 1) : Int) + i)) := by
      simp only [Tensor.map, List.getElem?_map, h1, Option.map_some']
    rw [List.getElem?_zipWith, h1, h2, opForwardSingle_eq]

/-- Witness for C1 at `p = 7`, squaring nonlinearity, `bits = 2`. -/
theorem C1_table_layout_complete_witness :
    ∃ rows : List (ZMod 7 × ZMod 7),
      (Table.layout 7 ⟨fun x => x * x, false, 2⟩).1 = .ok rows ∧
      rows.length = 2 ^ 2 ∧
      ∀ i : Nat, i < 2 ^ 2 →
        rows[i]? = some
          (i128_to_felt 7 (-(2 ^ (2 - 1) : Int) + i),
           i128_to_felt 7 (opForwardSingle (fun x => x * x) (-(2 ^ (2 - 1) : Int) + i))) :=
  C1_table_layout_complete 7 ⟨fun x => x * x, false, 2⟩ (by decide) rfl

/-- Claim C2 (code bug): at bits = 8, scale = 7 and maximum observed
lookup input 500, the claimed recommendation
`recommended_scale = scale − ⌈log2(max / 2^(b−1))⌉` equals 5, but the code
computes `1 + ⌈log2(max / 2^(b−1))⌉ − scale = −4`, which is not positive,
so the emitted warning recommends only `recommended_bits = 10` and no
scale. -/
theorem C2_budget_warning_code_eval :
    forwardBudgetWarning 500 8 7 = some (.bitsOnly 10) ∧
    (1 + ceilLog2Ratio 500 8 - 7 : Int) = -4 ∧
    specRecommendedScale 500 8 7 = 5 := by
  refine ⟨?_, by decide, by decide⟩
  decide

/-- Claim C3 counterexample: on shapes `[2]` and `[3]` the claim demands
an error (a mismatch with neither side 1), but the code returns `Ok [3]`;
on shapes `[2,1]` and `[3]` the claim demands `[2,3]`, but the code
returns the higher-rank shape `[2,1]` unchanged. -/
theorem C3_broadcast_shape_counterexample :
    get_broadcasted_shape [2] [3] = .ok [3] ∧
    broadcastShapeSpec [2] [3] = none ∧
    get_broadcasted_shape [2, 1] [3] = .ok [2, 1] ∧
    broadcastShapeSpec [2, 1] [3] = some [2, 3] :=
  ⟨rfl, rfl, rfl, rfl⟩

/-- Claim C3 as amended: `get_broadcasted_shape` never errors; with equal
ranks it returns the axis-wise max of the two shapes, with unequal ranks
it returns the higher-rank shape unchanged (mismatched axes are not
detected). -/
theorem C3_broadcast_shape_amended (a b : List Nat) :
    get_broadcasted_shape a b =
      .ok (if a.length = b.length then List.zipWith max a b
        else if a.length < b.length then b else a) :=
  get_broadcasted_shape_eq a b

/-- Claim C4: `Rescaled::f` with multiplier vector `scale` on inputs of
matching arity multiplies every element of input `i` by `scale[i]` and
delegates to the wrapped operator; in particular
`Rescaled{scale=[(0,1),(1,4)]}` wrapping `Add` computes `a + 4·b`. -/
theorem C4_rescaled_forward :
    (∀ (inner : List (Tensor Int) → Except TensorError (Tensor Int))
       (scale : List (Nat × Nat)) (x : List (Tensor Int)),
       scale.length = x.length →
       rescaledF inner scale x =
         inner (List.zipWith (fun s t => rescale t s.2) scale x)) ∧
    (∀ a b : Int,
       rescaledF addF [(0, 1), (1, 4)] [⟨[a], [1]⟩, ⟨[b], [1]⟩] =
         .ok ⟨[a + 4 * b], [1]⟩) := by
  constructor
  · intro inner scale x h
    unfold rescaledF
    rw [if_neg (by omega)]
  · intro a b
    have h1 : rescaledF addF [(0, 1), (1, 4)] [⟨[a], [1]⟩, ⟨[b], [1]⟩] =
        addF [⟨[a * 1], [1]⟩, ⟨[b * 4], [1]⟩] := by
      unfold rescaledF
      rw [if_neg (by simp)]
      rfl
    rw [h1]
    have h2 : (Tensor.mk [a * 1] [1]).add ⟨[b * 4], [1]⟩ =
        some ⟨[a * 1 + b * 4], [1]⟩ := by
      unfold Tensor.add
      rw [elemwiseBin_same _ ⟨[a * 1], [1]⟩ ⟨[b * 4], [1]⟩ rfl rfl]
      rfl
    simp only [addF, h2, Option.some.injEq]
    have : a * 1 + b * 4 = a + 4 * b := by ring
    rw [this]

/-- Witness for C4 at `a = 2`, `b = 3`. -/
theorem C4_rescaled_forward_witness :
    rescaledF addF [(0, 1), (1, 4)] [⟨[2], [1]⟩, ⟨[3], [1]⟩] =
      .ok ⟨[(14 : Int)], [1]⟩ := by
  have h := C4_rescaled_forward.2 2 3
  norm_num at h
  exact h

/-- Claim C5: for both fixed and dynamic lookup tables, a second `layout`
call on a table whose first layout succeeded returns
`TableAlreadyAssigned`, and that erroring call leaves the table
unchanged. -/
theorem C5_table_layout_guard :
    (∀ (p : Nat) (t : Table) (rows : List (ZMod p × ZMod p)) (t1 : Table),
       Table.layout p t = (.ok rows, t1) →
       Table.layout p t1 = (.error .TableAlreadyAssigned, t1)) ∧
    (∀ (p : Nat) (t : DynamicTable) (rows : List (ZMod p × ZMod p))
       (t1 : DynamicTable),
       DynamicTable.layout p t = (.ok rows, t1) →
       DynamicTable.layout p t1 = (.error .TableAlreadyAssigned, t1)) := by
  constructor
  · intro p t rows t1 h
    unfold Table.layout at h ⊢
    split at h
    case isTrue => exact absurd (congrArg Prod.fst h) (by simp)
    case isFalse hna =>
      split at h
      case h_1 => exact absurd (congrArg Prod.fst h) (by simp)
      case h_2 evals heq =>
        have ht1 : t1 = { t with is_assigned := true } :=
          (congrArg Prod.snd h).symm
        rw [if_pos (by rw [ht1])]
  · intro p t rows t1 h
    unfold DynamicTable.layout at h ⊢
    split at h
    case isTrue => exact absurd (congrArg Prod.fst h) (by simp)
    case isFalse hna =>
      split at h
      case h_1 => exact absurd (congrArg Prod.fst h) (by simp)
      case h_2 evals heq =>
        have ht1 : t1 = { t with is_assigned := true } :=
          (congrArg Prod.snd h).symm
        rw [if_pos (by rw [ht1])]

/-- Witness for C5: the identity nonlinearity at `p = 5`, `bits = 1`. -/
theorem C5_table_layout_guard_witness :
    Table.layout 5 ⟨fun x => x, true, 1⟩ =
      (.error .TableAlreadyAssigned, ⟨fun x => x, true, 1⟩) :=
  C5_table_layout_guard.1 5 ⟨fun x => x, false, 1⟩ _ ⟨fun x => x, true, 1⟩ rfl

/-- Claim C6 counterexample: `expand` aligns axes at the LEFT, not the
right.  Expanding the length-2 vector `[1, 2]` to shape `[2, 2]` yields
`[[1, 1], [2, 2]]`, while the claim (missing LEADING axes broadcast,
element at each multi-index taken from `t` at the same right-aligned
index) demands `[[1, 2], [1, 2]]`. -/
theorem C6_expand_counterexample :
    Tensor.expand (Tensor.mk ([1, 2] : List Int) [2]) [2, 2] =
      some (Tensor.mk [1, 1, 2, 2] [2, 2]) ∧
    expandSpec (Tensor.mk ([1, 2] : List Int) [2]) [2, 2] =
      some (Tensor.mk [1, 2, 1, 2] [2, 2]) ∧
    Tensor.mk ([1, 1, 2, 2] : List Int) [2, 2] ≠ Tensor.mk [1, 2, 1, 2] [2, 2] := by
  refine ⟨by decide, by decide, by decide⟩

/-- Claim C6 as amended: `t.expand(S)` succeeds whenever every axis of
`t` equals 1 or the SAME-POSITION (left-aligned) axis of `S`, with
missing TRAILING axes broadcast; the element of the result at each valid
multi-index `c` is the element of `t` at the first `rank t` coordinates
of `c` with every size-1 axis of `t` read at position 0. -/
theorem C6_expand_amended {α : Type} (t : Tensor α) (S : List Nat)
    (hwf : t.wf) (hok : ExpandOk t.dims S) :
    ∃ r, t.expand S = some r ∧ r.dims = S ∧
      ∀ c, List.Forall₂ (· < ·) c S → r.get c = t.get (newCoord t.dims c) :=
  expand_spec_of_ok t S hwf hok

/-- Witness for C6 on the counterexample input. -/
theorem C6_expand_amended_witness :
    ∃ r, Tensor.expand (Tensor.mk ([1, 2] : List Int) [2]) [2, 2] = some r ∧
      r.dims = [2, 2] ∧
      ∀ c, List.Forall₂ (· < ·) c [2, 2] →
        r.get c = (Tensor.mk ([1, 2] : List Int) [2]).get (newCoord [2] c) :=
  C6_expand_amended (Tensor.mk ([1, 2] : List Int) [2]) [2, 2] (by decide) (by decide)

/-- Claim C7 counterexample: `pow(0)` is not the all-ones tensor; the
loop is skipped and the trailing `acc.mul(base)` returns the base
unchanged, so `[2].pow(0) = [2]` while the claim demands `[1]`. -/
theorem C7_pow_zero_counterexample :
    Tensor.pow (Tensor.mk ([2] : List Int) [1]) 0 =
      some (Tensor.mk ([2] : List Int) [1]) ∧
    Tensor.mk ([2] : List Int) [1] ≠
      (Tensor.mk ([2] : List Int) [1]).map (fun x => x ^ (0 : Nat)) := by
  constructor
  · rw [Tensor.pow, powAux]
    norm_num
    decide
  · decide

/-- Claim C7 as amended: for every exponent `n ≥ 1`, `pow(n)` is the
elementwise `n`-th power (exponentiation by squaring); `pow(0)` returns
the tensor itself, not the all-ones tensor. -/
theorem C7_pow_amended :
    (∀ (t : Tensor Int) (n : Nat), 1 ≤ n →
       t.pow n = some (t.map fun x => x ^ n)) ∧
    (∀ t : Tensor Int, t.pow 0 = some t) := by
  constructor
  · intro t n hn
    rw [Tensor.pow]
    rw [powAux_eq_of_le n hn t (t.map fun _ => (1 : Int)) rfl (by simp [Tensor.map])]
    simp only [Tensor.map, List.zipWith_map_left, List.zipWith_same, one_mul]
  · intro t
    rw [Tensor.pow, powAux]
    rw [if_neg (by omega)]
    rw [mul_same (t.map fun _ => (1 : Int)) t rfl (by simp [Tensor.map])]
    simp only [Tensor.map, List.zipWith_map_left, List.zipWith_same, one_mul,
      List.map_id']

/-- Witness for C7 on the doc-test input. -/
theorem C7_pow_amended_witness :
    Tensor.pow (Tensor.mk ([2, 15, 2, 1, 1, 0] : List Int) [2, 3]) 3 =
      some ((Tensor.mk ([2, 15, 2, 1, 1, 0] : List Int) [2, 3]).map
        fun x => x ^ (3 : Nat)) :=
  C7_pow_amended.1 (Tensor.mk ([2, 15, 2, 1, 1, 0] : List Int) [2, 3]) 3 (by decide)

/-- Claim C8: addition of broadcast-compatible well-formed integer
tensors is commutative: whenever `A + B` succeeds, `B + A` succeeds with
the same shape and elements. -/
theorem C8_add_commutes (A B r : Tensor Int) (hA : A.wf) (hB : B.wf)
    (h : A.add B = some r) : B.add A = some r := by
  unfold Tensor.add elemwiseBin at h ⊢
  rcases hgbs : get_broadcasted_shape A.dims B.dims with e | s
  · simp only [hgbs] at h
    exact absurd h (by simp)
  · simp only [hgbs] at h
    simp only [get_broadcasted_shape_symm B.dims A.dims, hgbs]
    rcases hea : A.expand s with _ | a2
    · simp only [hea] at h
      exact absurd h (by simp)
    · rcases heb : B.expand s with _ | b2
      · simp only [hea, heb] at h
        exact absurd h (by simp)
      · simp only [hea, heb] at h
        simp only [Option.some.injEq] at h
        obtain ⟨ha2d, ha2l⟩ := expand_some_shape A s a2 hA hea
        obtain ⟨hb2d, hb2l⟩ := expand_some_shape B s b2 hB heb
        simp only [Option.some.injEq]
        rw [← h]
        have hlen : b2.inner.length = a2.inner.length := by rw [ha2l, hb2l]
        rw [zipMut_eq_zipWith _ _ _ hlen, zipMut_eq_zipWith _ _ _ hlen.symm]
        rw [List.zipWith_comm_of_comm _ Int.add_comm]
        rw [Tensor.mk.injEq]
        exact ⟨rfl, by rw [ha2d, hb2d]⟩

/-- Witness for C8 on the 2D-broadcast doc-test input. -/
theorem C8_add_commutes_witness :
    Tensor.add (Tensor.mk ([2, 3] : List Int) [2])
        (Tensor.mk [2, 1, 2, 1, 1, 1] [2, 3]) =
      some (Tensor.mk [4, 3, 4, 4, 4, 4] [2, 3]) :=
  C8_add_commutes (Tensor.mk ([2, 1, 2, 1, 1, 1] : List Int) [2, 3])
    (Tensor.mk [2, 3] [2]) (Tensor.mk [4, 3, 4, 4, 4, 4] [2, 3])
    (by decide) (by decide) (by decide)

/-- Claim C9: equality of boxed operators holds iff their `as_str` names
are equal, the total order is the order of the names, and consequently
two operators of the same kind with different parameters compare equal
(e.g. `ReLU{1}` and `ReLU{2}`) while being distinct values. -/
theorem C9_op_eq_by_name :
    (∀ a b : OpKind, opEqb a b = true ↔ a.as_str = b.as_str) ∧
    (∀ a b : OpKind, opCmp a b = compare a.as_str b.as_str) ∧
    (∀ s1 s2 : Nat, opEqb (.ReLU s1) (.ReLU s2) = true) ∧
    OpKind.ReLU 1 ≠ OpKind.ReLU 2 := by
  refine ⟨fun a b => ?_, fun a b => rfl, fun s1 s2 => ?_, by decide⟩
  · simp [opEqb]
  · simp [opEqb, OpKind.as_str]

/-- Claim C10: `duplicate_every_n` and `remove_every_n` always return a
rank-1 tensor whose shape is the single-element vector holding the
output length, regardless of the input rank. -/
theorem C10_every_n_rank_one :
    (∀ (α : Type) (t : Tensor α) (n off : Nat) (r : Tensor α),
       t.duplicate_every_n n off = some r → r.dims = [r.inner.length]) ∧
    (∀ (α : Type) (t : Tensor α) (n off : Nat) (r : Tensor α),
       t.remove_every_n n off = some r → r.dims = [r.inner.length]) := by
  constructor
  · intro α t n off r h
    unfold Tensor.duplicate_every_n at h
    split at h
    case isTrue => exact absurd h (by simp)
    case isFalse =>
      simp only [Option.some.injEq] at h
      rw [← h]
  · intro α t n off r h
    unfold Tensor.remove_every_n at h
    split at h
    case isTrue => exact absurd h (by simp)
    case isFalse =>
      simp only [Option.some.injEq] at h
      rw [← h]

/-- Witness for C10 on a rank-2 input from the doc tests. -/
theorem C10_every_n_rank_one_witness :
    Tensor.duplicate_every_n (Tensor.mk ([1, 2, 3, 4, 5, 6] : List Int) [2, 3]) 3 2 =
      some (Tensor.mk [1, 1, 2, 3, 3, 4, 5, 5, 6] [9]) ∧
    (Tensor.mk ([1, 1, 2, 3, 3, 4, 5, 5, 6] : List Int) [9]).dims =
      [(Tensor.mk ([1, 1, 2, 3, 3, 4, 5, 5, 6] : List Int) [9]).inner.length] :=
  ⟨by decide,
   C10_every_n_rank_one.1 Int (Tensor.mk [1, 2, 3, 4, 5, 6] [2, 3]) 3 2
     (Tensor.mk [1, 1, 2, 3, 3, 4, 5, 5, 6] [9]) (by decide)⟩

end Ezkl
